import Mathlib

/-!
Shallow embedding of the C-like text preprocessor in `src/pp.hpp`
(class `PreProcessor`): the lexer `next()`, the macro table directives
(`#define`, `#undef`, `#include`), the macro expander, and the
conditional-compilation machinery (`#if` / `#else` / `#endif`), together
with the two entry points `process()` and `expandMacros()`.

The buffer is a `List Char` and is immutable (the C++ class never writes
to `buffer` after construction), so it is passed as a separate parameter
`buf`; the mutable members (`cursor`, the three macro maps, the
line-offset vector of `LinColQuery`, and the output stream) form the
state `PP`.  Loops of the C++ source are embedded as fuel-based
structural recursion; fuel exhaustion is `Option.none`, and the
termination theorems below show the fuel chosen by the entry points
never runs out.
-/

namespace CPre

/-- C locale `isspace`. -/
def isSpaceC (c : Char) : Bool :=
  c = ' ' || c = '\t' || c = '\n' || c = '\x0b' || c = '\x0c' || c = '\r'

/-- C locale `isdigit`. -/
def isDigitC (c : Char) : Bool := '0' ≤ c && c ≤ '9'

/-- C locale `isalpha`. -/
def isAlphaC (c : Char) : Bool := ('a' ≤ c && c ≤ 'z') || ('A' ≤ c && c ≤ 'Z')

/-- C locale `isalnum`. -/
def isAlnumC (c : Char) : Bool := isAlphaC c || isDigitC c

/-- Start of an identifier: `std::isalpha(c) || c == '_'` (pp.hpp line 281). -/
def isIdentStart (c : Char) : Bool := isAlphaC c || c = '_'

/-- Identifier continuation: `std::isalnum(c) || c == '_'` (pp.hpp line 283). -/
def isIdentChar (c : Char) : Bool := isAlnumC c || c = '_'

/-- Length of the maximal leading run satisfying `p`. -/
def countWhile (p : Char → Bool) : List Char → Nat
  | [] => 0
  | c :: rest => if p c then countWhile p rest + 1 else 0

/-- Characters consumed after the opening `"` of a string literal
(pp.hpp lines 312-321): a backslash skips the following character
unconditionally (even past the end of the buffer, where the C++ cursor
overshoots `buffer.size()` by one); the closing quote is consumed when
present, and an unterminated literal consumes to the end. -/
def strLitScan : List Char → Nat
  | [] => 0
  | '"' :: _ => 1
  | ['\\'] => 2
  | '\\' :: _ :: rest => 2 + strLitScan rest
  | _ :: rest => 1 + strLitScan rest

/-- Characters consumed inside a `/*` comment, starting after the `/*`
(pp.hpp lines 526-533): advance while two characters remain and they are
not `*/`; if the loop stopped on `*/` consume those two as well,
otherwise stop short (the C++ loop leaves at most one character of an
unterminated comment to be re-examined as ordinary text). -/
def blockScan : List Char → Nat
  | '*' :: '/' :: _ => 2
  | _ :: c2 :: rest => 1 + blockScan (c2 :: rest)
  | _ => 0

/-- Model of `skip_whitespace_and_comments` (pp.hpp lines 509-538) on the suffix of
the buffer at the cursor, returning the number of characters skipped:
non-newline whitespace, `//` comments (to the newline, exclusive) and
`/*` comments.  Each iteration of the C++ `while` consumes at least one
character, so `l.length + 1` units of fuel always suffice. -/
def skipWSF : Nat → List Char → Nat
  | 0, _ => 0
  | _ + 1, [] => 0
  | fuel + 1, c :: rest =>
    if isSpaceC c && c != '\n' then
      1 + skipWSF fuel rest
    else
      match c, rest with
      | '/', '/' :: _ =>
        let k := countWhile (fun ch => ch != '\n') (c :: rest)
        k + skipWSF fuel ((c :: rest).drop k)
      | '/', '*' :: rest2 =>
        let k := 2 + blockScan rest2
        k + skipWSF fuel ((c :: rest).drop k)
      | _, _ => 0

def skipWS (l : List Char) : Nat := skipWSF (l.length + 1) l

/-- Model of `TokenKind` (pp.hpp lines 15-85).  The extra constructor `Number` is
the enumerator `TokenKind::Number` that `next()` (line 308) and the two
driver loops (lines 242, 839) refer to: it is *not* declared in the C++
enum (only `PPNumber` is), so the header does not compile as written; it
is modelled here as a distinct kind so the rest of the code can be
embedded as the source evidently intends it to run. -/
inductive TokenKind where
  | T_EOF | Unknown | Ident
  | Include | Define | Undef | If | Else | IfDef | IfNDef | Endif
  | PPNumber | CharLiteral | StringLiteral
  | L_Bracket | R_Bracket | L_Paren | R_Paren | L_Brace | R_Brace
  | Dot | Arrow | PlusPlus | MinusMinus | Ampersand | Star | Plus | Minus
  | Tilde | Not | Slash | Percent | LessLess | GreaterGreater | Less | Greater
  | LessEqual | GreaterEqual | EqualEqual | ExclamationEqual | XOR | BitOr
  | LogicAnd | LogicOr | Question | Colon | Semicolon | Ellipsis | Assign
  | MulAssign | DivAssign | ModAssign | AddAssign | MinusEqual
  | LessLessEqual | GreaterGreaterEqual | BitAndEqual | XorAssign | OrAssign
  | Comma | Hash | HashHash
  | Number
  deriving DecidableEq, Repr

/-- Model of `Token` (pp.hpp lines 88-94). -/
structure Token where
  begin_ : Nat
  len : Nat
  kind : TokenKind
  deriving DecidableEq, Repr

/-- Keyword classification of an identifier's text (pp.hpp lines 288-300). -/
def identKind (text : String) : TokenKind :=
  if text = "include" then .Include
  else if text = "define" then .Define
  else if text = "undef" then .Undef
  else if text = "if" then .If
  else if text = "else" then .Else
  else if text = "endif" then .Endif
  else .Ident

/-- Length and kind of a punctuator starting at character `c` with `rest`
following it (pp.hpp lines 335-477).  The nested matches reproduce the
C++ cascade of `if`s: for each first character, the multi-character
lookaheads are tested in the order the source tests them.  Note the
`...` case (lines 349-356) requires `cursor + 2 < buffer.size()` *after*
the first `.` was consumed, i.e. three characters after the `.` must
exist for `...` to lex as an ellipsis. -/
def punctLenKind (c : Char) (rest : List Char) : Nat × TokenKind :=
  match c, rest with
  | '[', _ => (1, .L_Bracket)
  | ']', _ => (1, .R_Bracket)
  | '(', _ => (1, .L_Paren)
  | ')', _ => (1, .R_Paren)
  | '{', _ => (1, .L_Brace)
  | '}', _ => (1, .R_Brace)
  | '.', '.' :: '.' :: _ :: _ => (3, .Ellipsis)
  | '.', _ => (1, .Dot)
  | '-', '>' :: _ => (2, .Arrow)
  | '+', '+' :: _ => (2, .PlusPlus)
  | '-', '-' :: _ => (2, .MinusMinus)
  | '&', '&' :: _ => (2, .LogicAnd)
  | '|', '|' :: _ => (2, .LogicOr)
  | '<', '<' :: '=' :: _ => (3, .LessLessEqual)
  | '<', '<' :: _ => (2, .LessLess)
  | '>', '>' :: '=' :: _ => (3, .GreaterGreaterEqual)
  | '>', '>' :: _ => (2, .GreaterGreater)
  | '<', '=' :: _ => (2, .LessEqual)
  | '>', '=' :: _ => (2, .GreaterEqual)
  | '=', '=' :: _ => (2, .EqualEqual)
  | '!', '=' :: _ => (2, .ExclamationEqual)
  | '*', '=' :: _ => (2, .MulAssign)
  | '/', '=' :: _ => (2, .DivAssign)
  | '%', '=' :: _ => (2, .ModAssign)
  | '+', '=' :: _ => (2, .AddAssign)
  | '-', '=' :: _ => (2, .MinusEqual)
  | '&', '=' :: _ => (2, .BitAndEqual)
  | '^', '=' :: _ => (2, .XorAssign)
  | '|', '=' :: _ => (2, .OrAssign)
  | '&', _ => (1, .Ampersand)
  | '*', _ => (1, .Star)
  | '+', _ => (1, .Plus)
  | '-', _ => (1, .Minus)
  | '~', _ => (1, .Tilde)
  | '!', _ => (1, .Not)
  | '/', _ => (1, .Slash)
  | '%', _ => (1, .Percent)
  | '<', _ => (1, .Less)
  | '>', _ => (1, .Greater)
  | '^', _ => (1, .XOR)
  | '|', _ => (1, .BitOr)
  | '?', _ => (1, .Question)
  | ':', _ => (1, .Colon)
  | ';', _ => (1, .Semicolon)
  | '=', _ => (1, .Assign)
  | ',', _ => (1, .Comma)
  | _, _ => (1, .Unknown)

/-- Model of `next()` (pp.hpp lines 261-478) as a pure function of the buffer and
cursor: skip whitespace and comments, then classify the token at the
post-skip position `p`.  Every branch produces a token whose `begin_` is
`p`; the caller's new cursor is `begin_ + len`.  Numbers are a maximal
run of decimal digits with the undeclared kind `Number` (lines 304-309):
there is no pp-number grammar, no `.`, exponent, hex or suffix handling,
and `'` character literals are not handled (they fall through to the
punctuator cascade and lex as `Unknown`). -/
def classifyTok (p : Nat) (c : Char) (rest : List Char) : Token :=
  if c = '\n' then ⟨p, 1, .Unknown⟩
  else if isIdentStart c then
    let n := countWhile isIdentChar (c :: rest)
    ⟨p, n, identKind (String.mk ((c :: rest).take n))⟩
  else if isDigitC c then
    ⟨p, countWhile isDigitC (c :: rest), .Number⟩
  else if c = '"' then ⟨p, 1 + strLitScan rest, .StringLiteral⟩
  else if c = '#' then
    match rest with
    | '#' :: _ => ⟨p, 2, .HashHash⟩
    | _ => ⟨p, 1, .Hash⟩
  else ⟨p, (punctLenKind c rest).1, (punctLenKind c rest).2⟩

def nextTok (buf : List Char) (cursor : Nat) : Token :=
  let k := skipWS (buf.drop cursor)
  let p := cursor + k
  match buf.drop p with
  | [] => ⟨p, 0, .T_EOF⟩
  | c :: rest => classifyTok p c rest

/-- Association-list model of `std::map<std::string, α>`: keys are unique,
lookup is by key, insertion (`operator[]` followed by assignment)
replaces any existing binding, `erase` removes the binding if present.
Iteration order is never observed by the preprocessor, so the list order
is irrelevant to all results. -/
def lookupA {α : Type} : List (String × α) → String → Option α
  | [], _ => none
  | (k, v) :: rest, key => if k = key then some v else lookupA rest key

def eraseA {α : Type} : List (String × α) → String → List (String × α)
  | [], _ => []
  | (k, v) :: rest, key =>
    if k = key then eraseA rest key else (k, v) :: eraseA rest key

def insertA {α : Type} (m : List (String × α)) (key : String) (v : α) :
    List (String × α) :=
  (key, v) :: eraseA m key

/-- The mutable members of `PreProcessor` (pp.hpp lines 131-142) other
than the immutable `buffer`: the cursor, the three macro maps, the
line-offset vector of `LinColQuery`, and the output accumulated in the
`std::ostringstream result` that the driver loops write to. -/
structure PP where
  cursor : Nat
  macros : List (String × String)
  functionMacros : List (String × List String)
  functionMacroReplacements : List (String × String)
  lineoffset : List Nat
  out : String
  deriving Repr

/-- The character at the cursor, when the cursor is in bounds. -/
def charAt (buf : List Char) (s : PP) : Option Char :=
  (buf.drop s.cursor).head?

/-- The statement `cursor++`. -/
def bump (s : PP) : PP := { s with cursor := s.cursor + 1 }

/-- Model of `skip_whitespace_and_comments()` as a state update. -/
def skipWSCursor (buf : List Char) (s : PP) : PP :=
  { s with cursor := s.cursor + skipWS (buf.drop s.cursor) }

/-- Model of `next()` as a state transformer: produce the token, advance the
cursor past it, and, when the token is a newline, record the new line
start in the `LinColQuery` offsets (pp.hpp lines 272-277). -/
def doNext (buf : List Char) (s : PP) : Token × PP :=
  let t := nextTok buf s.cursor
  let s' := { s with cursor := t.begin_ + t.len }
  if t.kind = .Unknown ∧ (buf.drop t.begin_).head? = some '\n' then
    (t, { s' with lineoffset := s'.lineoffset ++ [t.begin_ + 1] })
  else (t, s')

/-- Model of `getTokenText` (pp.hpp lines 148-153): empty when the token's span
exceeds the buffer, else the spanned slice. -/
def getTokenText (buf : List Char) (t : Token) : String :=
  if buf.length < t.begin_ + t.len then ""
  else String.mk ((buf.drop t.begin_).take t.len)

/-- Trailing-whitespace trim of `read_line` (pp.hpp lines 657-659),
using C `isspace`. -/
def trimRightSpace (l : List Char) : List Char :=
  (l.reverse.dropWhile isSpaceC).reverse

/-- Model of `read_line()` (pp.hpp lines 650-661): collect characters up to (not
including) the next newline, advance the cursor past them, and return
the collected text with trailing whitespace trimmed. -/
def read_line (buf : List Char) (s : PP) : String × PP :=
  let chars := (buf.drop s.cursor).takeWhile (fun c => c != '\n')
  (String.mk (trimRightSpace chars), { s with cursor := s.cursor + chars.length })

/-- Space or horizontal tab, the character class of `" \t"` used by the
condition trimmer and the argument trimmer. -/
def isSpTab (c : Char) : Bool := c = ' ' || c = '\t'

/-- The argument trim of `expandFunctionMacro` (pp.hpp lines 982-986):
`find_first_not_of(" \t")` / `find_last_not_of(" \t")`, except that an
argument consisting entirely of spaces and tabs is left unchanged
(`start == npos` skips the trim). -/
def trimSpTabEnds (l : List Char) : List Char :=
  if l.dropWhile isSpTab = [] then l
  else ((l.dropWhile isSpTab).reverse.dropWhile isSpTab).reverse

/-- Value of a maximal leading digit run, `none` when there is none. -/
def digitsVal (l : List Char) : Option Nat :=
  let ds := l.takeWhile isDigitC
  if ds = [] then none
  else some (ds.foldl (fun a c => a * 10 + (c.toNat - '0'.toNat)) 0)

/-- Model of `std::stoi`: skip C whitespace, an optional sign, then a decimal
digit run; fails (throws, here `none`) when no digit follows.  Parsing
stops at the first non-digit, so `"0x10"` parses as `0`.  (Overflow,
which `std::stoi` reports by throwing, cannot occur in the conditions
exercised here and is not modelled: the value is an unbounded `Int`.) -/
def stoiOpt (l : List Char) : Option Int :=
  let t := l.dropWhile isSpaceC
  match t with
  | '-' :: r => (digitsVal r).map (fun n => -(n : Int))
  | '+' :: r => (digitsVal r).map (fun n => (n : Int))
  | _ => (digitsVal t).map (fun n => (n : Int))

/-- Model of `expandMacrosInCondition` (pp.hpp lines 906-918): if the whole
condition text is an object-macro name, replace it by the macro body,
else leave it unchanged. -/
def expandMacrosInCondition (s : PP) (cond : String) : String :=
  match lookupA s.macros cond with
  | some body => body
  | none => cond

/-- Model of `evaluate_condition` (pp.hpp lines 663-698): trim spaces and tabs
(empty ⇒ false); a text of the exact shape `defined(NAME)` tests
membership of NAME in either macro map; otherwise expand one level of
object macro and, when the result starts with a digit or `-`, test the
`stoi` value against zero; anything else is false. -/
def evaluate_condition (s : PP) (condition : String) : Bool :=
  let l := condition.data
  let afterStart := l.dropWhile isSpTab
  if afterStart = [] then false
  else
    let trimmed := (afterStart.reverse.dropWhile isSpTab).reverse
    if "defined(".data.isPrefixOf trimmed && trimmed.getLast? = some ')' then
      let name := String.mk (trimmed.drop 8).dropLast
      (lookupA s.macros name).isSome || (lookupA s.functionMacros name).isSome
    else
      let expanded := (expandMacrosInCondition s (String.mk trimmed)).data
      match expanded.head? with
      | some h =>
        if isDigitC h || h = '-' then
          match stoiOpt expanded with
          | some v => v ≠ 0
          | none => false
        else false
      | none => false

/-- Errors that abort a run: `thrown` models a `std::runtime_error`
escaping to the caller, `assertFail` models a failing `assert`. -/
inductive RunErr where
  | thrown (msg : String)
  | assertFail (msg : String)
  deriving DecidableEq, Repr

/-- Bind through `Option (Except RunErr _)`: `none` is fuel exhaustion,
`error` an aborted run. -/
def mbind {α β : Type} (x : Option (Except RunErr α))
    (f : α → Option (Except RunErr β)) : Option (Except RunErr β) :=
  match x with
  | none => none
  | some (.error e) => some (.error e)
  | some (.ok a) => f a

/-- Model of `handle_include` (pp.hpp lines 540-546): the next token must be a
string literal; nothing else happens (no file is opened). -/
def handle_include (buf : List Char) (s : PP) : Except RunErr PP :=
  let t := (doNext buf s).1
  let s1 := (doNext buf s).2
  if t.kind = .StringLiteral then .ok s1
  else .error (.thrown "Expected a header name after #include")

/-- Model of `handle_undef` (pp.hpp lines 564-573): the next token must be an
identifier; its text is erased from both the object-macro and the
function-macro map (but not from `functionMacroReplacements`). -/
def handle_undef (buf : List Char) (s : PP) : Except RunErr PP :=
  let t := (doNext buf s).1
  let s1 := (doNext buf s).2
  if t.kind = .Ident then
    let name := getTokenText buf t
    .ok { s1 with macros := eraseA s1.macros name,
                  functionMacros := eraseA s1.functionMacros name }
  else .error (.thrown "Expected identifier after #undef")

/-- Model of `handle_object_macro` (pp.hpp lines 602-608): skip whitespace, read
the rest of the line, store it as the body.  The existing function-macro
entry of the same name, if any, is not removed. -/
def handleObjectMacroDef (buf : List Char) (s : PP) (name : String) : PP :=
  let s1 := skipWSCursor buf s
  let line := (read_line buf s1).1
  let s2 := (read_line buf s1).2
  { s2 with macros := insertA s2.macros name line }

/-- The parameter-parsing loop of `handle_function_macro` (pp.hpp lines
617-639).  Each iteration skips whitespace, stops at `)`, otherwise
requires an identifier token (fatal error if not) and then consumes a
following `,` or stops at a following `)`. -/
def paramLoopF (buf : List Char) :
    Nat → PP → List String → Option (Except RunErr (PP × List String))
  | 0, _, _ => none
  | fuel + 1, s, acc =>
    if s.cursor < buf.length then
      let s1 := skipWSCursor buf s
      if charAt buf s1 = some ')' then some (.ok (bump s1, acc))
      else
        let t := (doNext buf s1).1
        let s2 := (doNext buf s1).2
        if t.kind = .Ident then
          let acc' := acc ++ [getTokenText buf t]
          let s3 := skipWSCursor buf s2
          if charAt buf s3 = some ',' then paramLoopF buf fuel (bump s3) acc'
          else if charAt buf s3 = some ')' then some (.ok (bump s3, acc'))
          else paramLoopF buf fuel s3 acc'
        else some (.error (.thrown "Expected parameter name in function macro"))
    else some (.ok (s, acc))

/-- Model of `handle_function_macro` (pp.hpp lines 610-648): skip the `(`, parse
the parameter list, read the rest of the line as the replacement text,
and store both.  The existing object-macro entry of the same name, if
any, is not removed. -/
def handleFunctionMacroDef (buf : List Char) (s : PP) (name : String) :
    Option (Except RunErr PP) :=
  let s1 := bump s
  mbind (paramLoopF buf (buf.length - s1.cursor + 1) s1 []) fun r =>
    let line := (read_line buf r.1).1
    let s3 := (read_line buf r.1).2
    some (.ok { s3 with
      functionMacros := insertA s3.functionMacros name r.2,
      functionMacroReplacements := insertA s3.functionMacroReplacements name line })

/-- Model of `handle_define` (pp.hpp lines 548-562): the next token must be an
identifier (fatal error if not); a `(` immediately after it (no
whitespace skip) selects the function-macro form, else the object form. -/
def handle_define (buf : List Char) (s : PP) : Option (Except RunErr PP) :=
  let t := (doNext buf s).1
  let s1 := (doNext buf s).2
  if t.kind = .Ident then
    let name := getTokenText buf t
    if charAt buf s1 = some '(' then handleFunctionMacroDef buf s1 name
    else some (.ok (handleObjectMacroDef buf s1 name))
  else some (.error (.thrown "Expected identifier after #define"))

/-- The argument-collecting character walk of `expandFunctionMacro`
(pp.hpp lines 930-962), starting after the opening `(` with parenthesis
depth 0: returns the collected arguments and the number of characters
consumed (including the closing `)` when found).  A `,` separates
arguments only at depth 0; the argument in progress is pushed at the
closing `)` only when non-empty; running off the end of the buffer
discards the argument in progress. -/
def argScan : List Char → Int → String → List String → List String × Nat
  | [], _, _, args => (args, 0)
  | c :: rest, depth, cur, args =>
    if c = '(' then
      let (a, n) := argScan rest (depth + 1) (cur.push c) args
      (a, n + 1)
    else if c = ')' then
      if depth = 0 then
        (if cur ≠ "" then args ++ [cur] else args, 1)
      else
        let (a, n) := argScan rest (depth - 1) (cur.push c) args
        (a, n + 1)
    else if c = ',' ∧ depth = 0 then
      let (a, n) := argScan rest depth "" (args ++ [cur])
      (a, n + 1)
    else
      let (a, n) := argScan rest depth (cur.push c) args
      (a, n + 1)

/-- The substitution loop of `expandFunctionMacro` (pp.hpp lines
988-993): `replacement.find(param, pos)` / `replace` / `pos +=
arg.length()`, i.e. a left-to-right scan replacing every occurrence of
`param` and resuming the search just after the inserted `arg`, so text
introduced by the insertion is never re-matched.  One unit of fuel per
character of the body suffices, since `param` is a non-empty identifier
and each step consumes at least one character of the remaining body. -/
def raaF : Nat → List Char → List Char → List Char → List Char
  | 0, body, _, _ => body
  | _ + 1, [], _, _ => []
  | fuel + 1, c :: rest, param, arg =>
    if param.isPrefixOf (c :: rest) then
      arg ++ raaF fuel ((c :: rest).drop param.length) param arg
    else
      c :: raaF fuel rest param arg

def replaceAllAdvance (body param arg : List Char) : List Char :=
  raaF (body.length + 1) body param arg

/-- The parameter loop of `expandFunctionMacro` (pp.hpp lines 973-995):
for each parameter index below both list lengths, trim the argument and
replace every occurrence of the parameter in the body being built. -/
def substParamsList : List (String × String) → List Char → List Char
  | [], b => b
  | (p, a) :: rest, b =>
    substParamsList rest (replaceAllAdvance b p.data (trimSpTabEnds a.data))

def substParams (params args : List String) (body : String) : String :=
  String.mk (substParamsList (params.zip args) body.data)

/-- Model of `expandFunctionMacro` (pp.hpp lines 920-998): skip whitespace, and
unless a `(` follows return the macro name unexpanded; else walk the
arguments, fetch the replacement text and parameters, and substitute.
The cursor ends after the closing `)` (or at buffer end). -/
def expandFnMacroCall (buf : List Char) (s : PP) (name : String) :
    String × PP :=
  let s1 := skipWSCursor buf s
  if charAt buf s1 = some '(' then
    let s2 := bump s1
    let args := (argScan (buf.drop s2.cursor) 0 "" []).1
    let consumed := (argScan (buf.drop s2.cursor) 0 "" []).2
    let s3 := { s2 with cursor := s2.cursor + consumed }
    match lookupA s3.functionMacroReplacements name with
    | none => (name, s3)
    | some replacement =>
      match lookupA s3.functionMacros name with
      | some params => (substParams params args replacement, s3)
      | none => (replacement, s3)
  else (name, s1)

/-- Kinds preceded by an output space (pp.hpp lines 232-235). -/
def spaceBefore (k : TokenKind) : Bool :=
  match k with
  | .Assign | .Plus | .Minus | .Star | .Slash => true
  | _ => false

/-- Kinds followed by an output space when the next raw character is not
`;`, `(` or `)` (pp.hpp lines 242-245; note `TokenKind::Number` again). -/
def spaceAfterKind (k : TokenKind) : Bool :=
  match k with
  | .Ident | .Number | .Assign | .Plus | .Minus | .Star | .Slash => true
  | _ => false

/-- The regular-token emission shared by `processAndExpand` (pp.hpp
lines 228-254) and `processConditionalBlock` (lines 826-851): optional
space before, the token text, optional space after, and a space after
`;`. -/
def emitRegular (buf : List Char) (s : PP) (t : Token) : PP :=
  let text := getTokenText buf t
  let o1 := if spaceBefore t.kind then s.out ++ " " else s.out
  let o2 := o1 ++ text
  let o3 :=
    if spaceAfterKind t.kind then
      match charAt buf s with
      | some ch => if ch ≠ ';' ∧ ch ≠ '(' ∧ ch ≠ ')' then o2 ++ " " else o2
      | none => o2
    else o2
  let o4 := if t.kind = .Semicolon then o3 ++ " " else o3
  { s with out := o4 }

/-- The object-macro check that an identifier falls through to (pp.hpp
lines 221-225 and 819-823): a defined object macro's body is emitted
verbatim (no re-expansion), anything else is a regular token. -/
def objOrRegular (buf : List Char) (s : PP) (t : Token) (text : String) : PP :=
  match lookupA s.macros text with
  | some body => { s with out := s.out ++ body }
  | none => emitRegular buf s t

/-- The identifier handling of both driver loops (pp.hpp lines 200-226
and 802-824): a function-macro name is expanded only when, after
skipping whitespace and comments, a `(` follows; otherwise the cursor is
restored to the position saved before the lookahead and the identifier
falls through to the object-macro check. -/
def identStep (buf : List Char) (s : PP) (t : Token) : PP :=
  let text := getTokenText buf t
  if (lookupA s.functionMacros text).isSome then
    let saved := s.cursor
    let s1 := skipWSCursor buf s
    if charAt buf s1 = some '(' then
      let expanded := (expandFnMacroCall buf s1 text).1
      let s2 := (expandFnMacroCall buf s1 text).2
      { s2 with out := s2.out ++ expanded }
    else objOrRegular buf { s1 with cursor := saved } t text
  else objOrRegular buf s t text

/-- Model of `skip_until_else_or_endif` (pp.hpp lines 700-717) and the textually
identical `skipConditionalBlock` (lines 855-872): consume tokens,
tracking `#if`/`#endif` nesting, until depth reaches 0 or an `#else` at
depth 1 (consumed) or buffer exhaustion. -/
def skipCondBlockF (buf : List Char) : Nat → PP → Int → Option PP
  | 0, _, _ => none
  | fuel + 1, s, depth =>
    if s.cursor < buf.length ∧ 0 < depth then
      let t := (doNext buf s).1
      let s1 := (doNext buf s).2
      if t.kind = .Hash then
        let d := (doNext buf s1).1
        let s2 := (doNext buf s1).2
        if d.kind = .If then skipCondBlockF buf fuel s2 (depth + 1)
        else if d.kind = .Endif then skipCondBlockF buf fuel s2 (depth - 1)
        else if d.kind = .Else ∧ depth = 1 then some s2
        else skipCondBlockF buf fuel s2 depth
      else skipCondBlockF buf fuel s1 depth
    else some s

/-- Model of `skip_until_endif` (pp.hpp lines 719-734): like the above but
without the `#else` escape. -/
def skipUntilEndifF (buf : List Char) : Nat → PP → Int → Option PP
  | 0, _, _ => none
  | fuel + 1, s, depth =>
    if s.cursor < buf.length ∧ 0 < depth then
      let t := (doNext buf s).1
      let s1 := (doNext buf s).2
      if t.kind = .Hash then
        let d := (doNext buf s1).1
        let s2 := (doNext buf s1).2
        if d.kind = .If then skipUntilEndifF buf fuel s2 (depth + 1)
        else if d.kind = .Endif then skipUntilEndifF buf fuel s2 (depth - 1)
        else skipUntilEndifF buf fuel s2 depth
      else skipUntilEndifF buf fuel s1 depth
    else some s

/-- Model of `findMatchingElse` (pp.hpp lines 874-894): scan forward for the next
`#else` (returning `true` with the cursor just after it) or `#endif`
(restoring the saved cursor and returning `false`); buffer exhaustion
also restores the saved cursor.  Note it performs no depth tracking. -/
def findElseF (buf : List Char) : Nat → Nat → PP → Option (Bool × PP)
  | 0, _, _ => none
  | fuel + 1, saved, s =>
    if s.cursor < buf.length then
      let t := (doNext buf s).1
      let s1 := (doNext buf s).2
      if t.kind = .Hash then
        let d := (doNext buf s1).1
        let s2 := (doNext buf s1).2
        if d.kind = .Else then some (true, s2)
        else if d.kind = .Endif then some (false, { s2 with cursor := saved })
        else findElseF buf fuel saved s2
      else findElseF buf fuel saved s1
    else some (false, { s with cursor := saved })

mutual

/-- The `processAndExpand` loop (pp.hpp lines 165-258): directives are
dispatched (a `#` followed by none of the six directive kinds consumes
both tokens and emits nothing), an `Unknown` token emits a newline, an
identifier goes through macro lookup, everything else is emitted as a
regular token. -/
def paeLoopF (buf : List Char) : Nat → PP → Option (Except RunErr PP)
  | 0, _ => none
  | fuel + 1, s =>
    if s.cursor < buf.length then
      let t := (doNext buf s).1
      let s1 := (doNext buf s).2
      if t.kind = .T_EOF then some (.ok s1)
      else if t.kind = .Hash then
        let d := (doNext buf s1).1
        let s2 := (doNext buf s1).2
        if d.kind = .Include then
          match handle_include buf s2 with
          | .error e => some (.error e)
          | .ok s3 => paeLoopF buf fuel s3
        else if d.kind = .Define then
          mbind (handle_define buf s2) fun s3 => paeLoopF buf fuel s3
        else if d.kind = .Undef then
          match handle_undef buf s2 with
          | .error e => some (.error e)
          | .ok s3 => paeLoopF buf fuel s3
        else if d.kind = .If then
          mbind (handleIfWF buf fuel s2) fun s3 => paeLoopF buf fuel s3
        else if d.kind = .Else then
          match skipUntilEndifF buf (buf.length - s2.cursor + 1) s2 1 with
          | none => none
          | some s3 => paeLoopF buf fuel s3
        else if d.kind = .Endif then paeLoopF buf fuel s2
        else paeLoopF buf fuel s2
      else if t.kind = .Unknown then
        paeLoopF buf fuel { s1 with out := s1.out ++ "\n" }
      else if t.kind = .Ident then paeLoopF buf fuel (identStep buf s1 t)
      else paeLoopF buf fuel (emitRegular buf s1 t)
    else some (.ok s)

/-- Model of `handle_if_with_expansion` (pp.hpp lines 736-757): read the
condition line and evaluate it; a true condition processes the block as
the taken branch; a false one skips it, and processes the `#else` branch
only when `findMatchingElse` (invoked *after* `skipConditionalBlock`
already consumed the `#else`, so it actually looks at the text following
it) reports one, else restores the cursor. -/
def handleIfWF (buf : List Char) : Nat → PP → Option (Except RunErr PP)
  | 0, _ => none
  | fuel + 1, s =>
    let cond := (read_line buf s).1
    let s1 := (read_line buf s).2
    if evaluate_condition s1 cond then
      pcbF buf fuel s1 true 1
    else
      match skipCondBlockF buf (buf.length - s1.cursor + 1) s1 1 with
      | none => none
      | some s2 =>
        match findElseF buf (buf.length - s2.cursor + 1) s2.cursor s2 with
        | none => none
        | some (true, s3) => pcbF buf fuel s3 false 1
        | some (false, s3) => some (.ok s3)

/-- Model of `processConditionalBlock` (pp.hpp lines 759-853): emit the branch's
tokens with macro expansion; a nested `#if` is handled by a recursive
`handle_if_with_expansion` (the depth counter nets to its old value); an
`#endif` that brings the depth to 0 ends the block; an `#else` at depth
1 ends the block only when this is the taken `#if` branch; `#define` and
`#undef` inside the branch are executed; other directives are consumed
silently. -/
def pcbF (buf : List Char) : Nat → PP → Bool → Int → Option (Except RunErr PP)
  | 0, _, _, _ => none
  | fuel + 1, s, isIfBranch, depth =>
    if s.cursor < buf.length ∧ 0 < depth then
      let t := (doNext buf s).1
      let s1 := (doNext buf s).2
      if t.kind = .T_EOF then some (.ok s1)
      else if t.kind = .Hash then
        let d := (doNext buf s1).1
        let s2 := (doNext buf s1).2
        if d.kind = .If then
          mbind (handleIfWF buf fuel s2) fun s3 => pcbF buf fuel s3 isIfBranch depth
        else if d.kind = .Endif then
          if depth - 1 = 0 then some (.ok s2)
          else pcbF buf fuel s2 isIfBranch (depth - 1)
        else if d.kind = .Else ∧ depth = 1 then
          if isIfBranch then some (.ok s2)
          else pcbF buf fuel s2 isIfBranch depth
        else if d.kind = .Define then
          mbind (handle_define buf s2) fun s3 => pcbF buf fuel s3 isIfBranch depth
        else if d.kind = .Undef then
          match handle_undef buf s2 with
          | .error e => some (.error e)
          | .ok s3 => pcbF buf fuel s3 isIfBranch depth
        else pcbF buf fuel s2 isIfBranch depth
      else if t.kind = .Unknown then
        pcbF buf fuel { s1 with out := s1.out ++ "\n" } isIfBranch depth
      else if t.kind = .Ident then pcbF buf fuel (identStep buf s1 t) isIfBranch depth
      else pcbF buf fuel (emitRegular buf s1 t) isIfBranch depth
    else some (.ok s)

end

/-- The `process()` loop (pp.hpp lines 481-506): directives only; the
legacy `handle_if` (lines 575-586) evaluates the condition and skips to
the matching `#else`/`#endif` when false; a `#` followed by none of the
six directive kinds hits `assert(0 && "unexpect kind")`. -/
def procLoopF (buf : List Char) : Nat → PP → Option (Except RunErr PP)
  | 0, _ => none
  | fuel + 1, s =>
    let t := (doNext buf s).1
    let s1 := (doNext buf s).2
    if t.kind = .T_EOF then some (.ok s1)
    else if t.kind = .Hash then
      let d := (doNext buf s1).1
      let s2 := (doNext buf s1).2
      if d.kind = .Include then
        match handle_include buf s2 with
        | .error e => some (.error e)
        | .ok s3 => procLoopF buf fuel s3
      else if d.kind = .Define then
        mbind (handle_define buf s2) fun s3 => procLoopF buf fuel s3
      else if d.kind = .Undef then
        match handle_undef buf s2 with
        | .error e => some (.error e)
        | .ok s3 => procLoopF buf fuel s3
      else if d.kind = .If then
        let cond := (read_line buf s2).1
        let s3 := (read_line buf s2).2
        if evaluate_condition s3 cond then procLoopF buf fuel s3
        else
          match skipCondBlockF buf (buf.length - s3.cursor + 1) s3 1 with
          | none => none
          | some s4 => procLoopF buf fuel s4
      else if d.kind = .Else then
        match skipUntilEndifF buf (buf.length - s2.cursor + 1) s2 1 with
        | none => none
        | some s3 => procLoopF buf fuel s3
      else if d.kind = .Endif then procLoopF buf fuel s2
      else some (.error (.assertFail "unexpect kind"))
    else procLoopF buf fuel s1

/-- The state of a freshly constructed `PreProcessor` (line offset 0 is
pre-pushed by the `LinColQuery` constructor, pp.hpp lines 99-101). -/
def initPP : PP :=
  { cursor := 0, macros := [], functionMacros := [],
    functionMacroReplacements := [], lineoffset := [0], out := "" }

/-- Model of `processAndExpand()` / `expandMacros()` (pp.hpp lines 159-163,
165-258) on an input string, with enough fuel for any input (see the
termination theorems). -/
def processAndExpand (input : String) : Option (Except RunErr String) :=
  match paeLoopF input.data (2 * input.length + 2) initPP with
  | none => none
  | some (.error e) => some (.error e)
  | some (.ok s) => some (.ok s.out)

def expandMacros (input : String) : Option (Except RunErr String) :=
  processAndExpand input

/-- Model of `process()` on an input string, returning the final preprocessor
state (macro table included). -/
def process (input : String) : Option (Except RunErr PP) :=
  procLoopF input.data (input.length + 2) initPP

/-- All whitespace removed; the driver's output inserts formatting
spaces and newline markers around tokens (spec §6), so claims about
which token text appears are read modulo this whitespace. -/
def stripWSAll (s : String) : String :=
  String.mk (s.data.filter (fun c => !isSpaceC c))

/-- Result of `expandMacros` with all whitespace removed from a successful output. -/
def expandStripped (input : String) : Option (Except RunErr String) :=
  (expandMacros input).map (fun r => r.map stripWSAll)

/-- Substring test on the underlying character lists. -/
def containsSub (needle : List Char) : List Char → Bool
  | [] => needle.isEmpty
  | c :: rest => needle.isPrefixOf (c :: rest) || containsSub needle rest

def strContains (hay needle : String) : Bool := containsSub needle.data hay.data

/-- First `n` tokens of a buffer, from a cursor. -/
def tokenSeq (buf : List Char) : Nat → Nat → List Token
  | _, 0 => []
  | cursor, n + 1 =>
    let t := nextTok buf cursor
    t :: tokenSeq buf (t.begin_ + t.len) n

/-- C1: the claim says every literal in the pp-number list lexes as one
numeral token spanning the whole literal, followed by end-of-input.  The
lexer in `next()` (pp.hpp lines 303-309) only consumes a maximal decimal
digit run (with the undeclared kind `Number`), so `3.14159` lexes as
three tokens, `.5` starts with a `Dot` token, `0xFF` and `123L` lex as a
number followed by an identifier — contradicting both the claim and the
repository's own `test_ppnumber.cpp`. -/
theorem c1_lexer_splits_pp_numbers :
    tokenSeq "3.14159".data 0 4 =
      [⟨0, 1, .Number⟩, ⟨1, 1, .Dot⟩, ⟨2, 5, .Number⟩, ⟨7, 0, .T_EOF⟩] ∧
    tokenSeq ".5".data 0 3 =
      [⟨0, 1, .Dot⟩, ⟨1, 1, .Number⟩, ⟨2, 0, .T_EOF⟩] ∧
    tokenSeq "0xFF".data 0 3 =
      [⟨0, 1, .Number⟩, ⟨1, 3, .Ident⟩, ⟨4, 0, .T_EOF⟩] ∧
    tokenSeq "123L".data 0 3 =
      [⟨0, 3, .Number⟩, ⟨3, 1, .Ident⟩, ⟨4, 0, .T_EOF⟩] ∧
    tokenSeq "123".data 0 2 = [⟨0, 3, .Number⟩, ⟨3, 0, .T_EOF⟩] ∧
    (nextTok "3.14159".data 0).kind ≠ .PPNumber :=
  ⟨rfl, rfl, rfl, rfl, rfl, by decide⟩

/-- C2: with `#define DEBUG 0`, `expandMacros` emits only the `#else`
branch (whitespace-stripped output is exactly `intb=2;`), as the claim
says; but with `#define DEBUG 1` the code emits *both* branches
(`inta=1;intb=2;`): `processConditionalBlock` returns at `#else` and the
main loop then re-emits the `#else` branch's tokens, contradicting the
claim's second half. -/
theorem c2_conditional_selection_eval :
    expandStripped "#define DEBUG 0\n#if DEBUG\nint a=1;\n#else\nint b=2;\n#endif" =
      some (.ok "intb=2;") ∧
    expandStripped "#define DEBUG 1\n#if DEBUG\nint a=1;\n#else\nint b=2;\n#endif" =
      some (.ok "inta=1;intb=2;") :=
  ⟨rfl, rfl⟩

/-- C3 counterexample: after `#define M 1` followed by `#define M(x) x`,
the name `M` is present in *both* the object-macro and the
function-macro map (neither `handle_object_macro` nor
`handle_function_macro` erases the other map), so "only one of the two
maps contains M" is false. -/
theorem c3_redefine_lands_in_both_maps :
    (process "#define M 1\n#define M(x) x\n").map (fun r => r.map (fun st =>
      (lookupA st.macros "M", lookupA st.functionMacros "M"))) =
      some (.ok (some "1", some ["x"])) :=
  rfl

/-- C6: the nested conditional emits exactly the inner `#else` branch:
the whitespace-stripped output is exactly `inty;` (so `int y;` appears
and `int x;` does not, and nothing else is emitted). -/
theorem c6_nested_conditionals :
    expandStripped "#if 1\n#if 0\nint x;\n#else\nint y;\n#endif\n#endif" =
      some (.ok "inty;") :=
  rfl

/-- C8: each of the four malformed-directive shapes aborts the whole run
of both `process()` and `expandMacros()` with the descriptive message of
the `std::runtime_error` the handler throws; the run that already
produced text before the malformed directive still yields only the
error, never partial output. -/
theorem c8_fatal_directive_errors :
    expandMacros "#define 1" =
      some (.error (.thrown "Expected identifier after #define")) ∧
    process "#define 1" =
      some (.error (.thrown "Expected identifier after #define")) ∧
    expandMacros "#undef 1" =
      some (.error (.thrown "Expected identifier after #undef")) ∧
    process "#undef 1" =
      some (.error (.thrown "Expected identifier after #undef")) ∧
    expandMacros "#include x" =
      some (.error (.thrown "Expected a header name after #include")) ∧
    process "#include x" =
      some (.error (.thrown "Expected a header name after #include")) ∧
    expandMacros "#define F(1) x" =
      some (.error (.thrown "Expected parameter name in function macro")) ∧
    process "#define F(1) x" =
      some (.error (.thrown "Expected parameter name in function macro")) ∧
    expandMacros "int a;\n#define 1" =
      some (.error (.thrown "Expected identifier after #define")) ∧
    process "int a;\n#define 1" =
      some (.error (.thrown "Expected identifier after #define")) :=
  ⟨rfl, rfl, rfl, rfl, rfl, rfl, rfl, rfl, rfl, rfl⟩

/-- C10: on `"# foo"` the `process()` dispatch falls into the
`assert(0 && "unexpect kind")` arm (the token after `#` is an ordinary
identifier), while `expandMacros()` on the same input silently consumes
the `#` and the identifier and emits nothing. -/
theorem c10_unknown_directive :
    process "# foo" = some (.error (.assertFail "unexpect kind")) ∧
    expandMacros "# foo" = some (.ok "") :=
  ⟨rfl, rfl⟩

/-! ### Support lemmas for the macro-table and substitution claims -/

theorem lookupA_eraseA {α : Type} (m : List (String × α)) (k : String) :
    lookupA (eraseA m k) k = none := by
  induction m with
  | nil => rfl
  | cons p rest ih =>
    obtain ⟨k', v⟩ := p
    by_cases h : k' = k <;> simp [eraseA, h, lookupA, ih]

theorem eraseA_of_absent {α : Type} (m : List (String × α)) (k : String)
    (h : lookupA m k = none) : eraseA m k = m := by
  induction m with
  | nil => rfl
  | cons p rest ih =>
    obtain ⟨k', v⟩ := p
    by_cases hk : k' = k
    · simp [lookupA, hk] at h
    · simp only [lookupA, if_neg hk] at h
      simp [eraseA, hk, ih h]

theorem doNext_macros (buf : List Char) (s : PP) :
    ((doNext buf s).2).macros = s.macros ∧
    ((doNext buf s).2).functionMacros = s.functionMacros := by
  simp only [doNext]
  split <;> exact ⟨rfl, rfl⟩

theorem zipTakeRight {α β : Type} (ps : List α) :
    ∀ (as : List β), ps.zip (as.take ps.length) = ps.zip as := by
  induction ps with
  | nil => intro as; simp
  | cons p ps ih =>
    intro as
    cases as with
    | nil => simp
    | cons a as => simp [List.zip_cons_cons, ih]

theorem zipTakeLeft {α β : Type} (ps : List α) :
    ∀ (as : List β), (ps.take as.length).zip as = ps.zip as := by
  induction ps with
  | nil => intro as; simp
  | cons p ps ih =>
    intro as
    cases as with
    | nil => simp
    | cons a as => simp [List.zip_cons_cons, ih]

theorem dropWhile_head_false (p : Char → Bool) :
    ∀ (l : List Char) (c : Char) (rest : List Char),
      l.dropWhile p = c :: rest → p c = false := by
  intro l
  induction l with
  | nil => intro c rest h; simp [List.dropWhile] at h
  | cons a l ih =>
    intro c rest h
    rw [List.dropWhile_cons] at h
    by_cases hp : p a
    · rw [if_pos hp] at h; exact ih _ _ h
    · rw [if_neg hp] at h
      obtain ⟨rfl, rfl⟩ : a = c ∧ l = rest := by simpa using h
      simpa using hp

theorem dropWhile_cons_false (p : Char → Bool) (c : Char) (l : List Char)
    (hc : p c = false) : (c :: l).dropWhile p = c :: l := by
  rw [List.dropWhile_cons, if_neg (by simp [hc])]

theorem dropWhile_append_last (p : Char → Bool) (c : Char) (hc : p c = false) :
    ∀ (l : List Char), ∃ w, (l ++ [c]).dropWhile p = w ++ [c] := by
  intro l
  induction l with
  | nil => exact ⟨[], by simpa using dropWhile_cons_false p c [] hc⟩
  | cons a l ih =>
    by_cases hp : p a
    · obtain ⟨w, hw⟩ := ih
      refine ⟨w, ?_⟩
      rw [List.cons_append, List.dropWhile_cons, if_pos (by simp [hp]), hw]
    · refine ⟨a :: l, ?_⟩
      rw [List.cons_append, dropWhile_cons_false p a _ (by simpa using hp)]

theorem trimSpTabEnds_idem (l : List Char) :
    trimSpTabEnds (trimSpTabEnds l) = trimSpTabEnds l := by
  by_cases h : l.dropWhile isSpTab = []
  · have e : trimSpTabEnds l = l := by simp [trimSpTabEnds, h]
    rw [e, e]
  · obtain ⟨c, v, hu⟩ : ∃ c v, l.dropWhile isSpTab = c :: v := by
      cases hx : l.dropWhile isSpTab with
      | nil => exact absurd hx h
      | cons c v => exact ⟨c, v, rfl⟩
    have hc : isSpTab c = false := dropWhile_head_false _ l c v hu
    obtain ⟨w', hw⟩ := dropWhile_append_last isSpTab c hc v.reverse
    have ht : trimSpTabEnds l = c :: w'.reverse := by
      simp only [trimSpTabEnds, if_neg h, hu, List.reverse_cons, hw,
        List.reverse_append, List.reverse_cons, List.reverse_nil,
        List.nil_append, List.cons_append]
      rfl
    obtain ⟨d, rest, hd⟩ : ∃ d rest, w' ++ [c] = d :: rest := by
      cases w' with
      | nil => exact ⟨c, [], rfl⟩
      | cons x xs => exact ⟨x, xs ++ [c], rfl⟩
    have hdf : isSpTab d = false :=
      dropWhile_head_false _ (v.reverse ++ [c]) d rest (hw.trans hd)
    have h1 : (c :: w'.reverse).dropWhile isSpTab = c :: w'.reverse :=
      dropWhile_cons_false _ _ _ hc
    rw [ht]
    simp only [trimSpTabEnds, h1, reduceCtorEq, if_false, List.reverse_cons,
      List.reverse_reverse]
    rw [hd, dropWhile_cons_false _ _ _ hdf, ← hd]
    simp

theorem substParamsList_trim :
    ∀ (l : List (String × String)) (b : List Char),
      substParamsList
        (l.map (fun pa => (pa.1, String.mk (trimSpTabEnds pa.2.data)))) b =
        substParamsList l b := by
  intro l
  induction l with
  | nil => intro b; rfl
  | cons pa rest ih =>
    intro b
    obtain ⟨p, a⟩ := pa
    simp only [List.map_cons, substParamsList, ih]
    rw [trimSpTabEnds_idem]

/-- C3 counterexample supports the corrected claim; this theorem proves
the amended statement: `#undef` erases the name from both the
object-macro and function-macro maps unconditionally (the token's text
is looked up as `none` in both afterwards), an `#undef` of a name
present in neither map leaves both maps unchanged (a silent no-op), and
— the amendment — a name *can* be registered in both maps at once,
since a `#define` of one shape does not remove the other shape's entry
(witnessed by the `M` run, and by the run where both shapes are then
removed by `#undef`). -/
theorem c3_undef_both_maps_amended :
    (∀ (buf : List Char) (s : PP) (s' : PP), handle_undef buf s = .ok s' →
      lookupA s'.macros (getTokenText buf (nextTok buf s.cursor)) = none ∧
      lookupA s'.functionMacros (getTokenText buf (nextTok buf s.cursor)) = none) ∧
    (∀ (buf : List Char) (s : PP) (s' : PP), handle_undef buf s = .ok s' →
      lookupA s.macros (getTokenText buf (nextTok buf s.cursor)) = none →
      lookupA s.functionMacros (getTokenText buf (nextTok buf s.cursor)) = none →
      s'.macros = s.macros ∧ s'.functionMacros = s.functionMacros) ∧
    (process "#define A 1\n#define F(x) y\n#undef A\n#undef F\n#undef Z\n").map
      (fun r => r.map (fun st => (st.macros, st.functionMacros))) =
      some (.ok ([], [])) ∧
    (process "#define M 1\n#define M(x) x\n").map (fun r => r.map (fun st =>
      ((lookupA st.macros "M").isSome, (lookupA st.functionMacros "M").isSome))) =
      some (.ok (true, true)) := by
  have hfst : ∀ (buf : List Char) (s : PP),
      (doNext buf s).1 = nextTok buf s.cursor := by
    intro buf s
    simp only [doNext]
    split <;> rfl
  refine ⟨?_, ?_, rfl, rfl⟩
  · intro buf s s' h
    rw [← hfst buf s]
    unfold handle_undef at h
    rcases hds : doNext buf s with ⟨t, s1⟩
    rw [hds] at h
    show lookupA s'.macros (getTokenText buf t) = none ∧
      lookupA s'.functionMacros (getTokenText buf t) = none
    replace h :
        (if t.kind = TokenKind.Ident then
          (Except.ok (PP.mk s1.cursor (eraseA s1.macros (getTokenText buf t))
            (eraseA s1.functionMacros (getTokenText buf t))
            s1.functionMacroReplacements s1.lineoffset s1.out) :
              Except RunErr PP)
        else Except.error (RunErr.thrown "Expected identifier after #undef")) =
          Except.ok s' := h
    split at h
    · injection h with h
      subst h
      exact ⟨lookupA_eraseA _ _, lookupA_eraseA _ _⟩
    · injection h
  · intro buf s s' h h1 h2
    rw [← hfst buf s] at h1 h2
    unfold handle_undef at h
    rcases hds : doNext buf s with ⟨t, s1⟩
    rw [hds] at h h1 h2
    have hm1 : s1.macros = s.macros := by
      have := (doNext_macros buf s).1
      rw [hds] at this
      exact this
    have hm2 : s1.functionMacros = s.functionMacros := by
      have := (doNext_macros buf s).2
      rw [hds] at this
      exact this
    replace h :
        (if t.kind = TokenKind.Ident then
          (Except.ok (PP.mk s1.cursor (eraseA s1.macros (getTokenText buf t))
            (eraseA s1.functionMacros (getTokenText buf t))
            s1.functionMacroReplacements s1.lineoffset s1.out) :
              Except RunErr PP)
        else Except.error (RunErr.thrown "Expected identifier after #undef")) =
          Except.ok s' := h
    replace h1 : lookupA s.macros (getTokenText buf t) = none := h1
    replace h2 : lookupA s.functionMacros (getTokenText buf t) = none := h2
    split at h
    · injection h with h
      subst h
      refine ⟨?_, ?_⟩
      · show eraseA s1.macros (getTokenText buf t) = s.macros
        rw [hm1]
        exact eraseA_of_absent _ _ h1
      · show eraseA s1.functionMacros (getTokenText buf t) = s.functionMacros
        rw [hm2]
        exact eraseA_of_absent _ _ h2
    · injection h

/-- Witness for `c3_undef_both_maps_amended`: its hypothesized parts
instantiated at `#undef A` over a table holding only an object macro
`A`, and at `#undef B` over an empty table. -/
theorem c3_undef_both_maps_amended_witness :
    (lookupA (PP.macros (⟨8, [], [], [], [0], ""⟩ : PP)) "B" = none ∧
      lookupA (PP.functionMacros (⟨8, [], [], [], [0], ""⟩ : PP)) "B" = none) ∧
    ((⟨8, [], [], [], [0], ""⟩ : PP).macros = ([] : List (String × String)) ∧
      (⟨8, [], [], [], [0], ""⟩ : PP).functionMacros =
        ([] : List (String × List String))) := by
  constructor
  · exact c3_undef_both_maps_amended.1 "#undef B".data
      ⟨6, [], [], [], [0], ""⟩ ⟨8, [], [], [], [0], ""⟩ rfl
  · exact c3_undef_both_maps_amended.2.1 "#undef B".data
      ⟨6, [], [], [], [0], ""⟩ ⟨8, [], [], [], [0], ""⟩ rfl rfl rfl

/-- C4: an identifier matching a defined object macro (and not taken as
a function-macro call) is replaced by the stored body text appended
verbatim to the output — nothing else of the state changes and the body
is not rescanned.  Concretely, `PI` expands to `3.14159` at every use
outside the definition (the exact driver output, formatting spaces
included, and the whitespace-stripped form), and a body that names
another macro (`A`'s body is `B` while `B` is also defined) leaves that
name literally in the output: `B` appears, its body `2` does not. -/
theorem c4_object_macro_verbatim :
    expandMacros "#define PI 3.14159\nfloat x = PI;" =
      some (.ok "\nfloat x  = 3.14159; ") ∧
    expandStripped "#define PI 3.14159\nfloat x = PI;" =
      some (.ok "floatx=3.14159;") ∧
    strContains "\nfloat x  = 3.14159; " "PI" = false ∧
    expandStripped "#define A B\n#define B 2\nint x = A;" =
      some (.ok "intx=B;") ∧
    (∀ (buf : List Char) (s : PP) (t : Token) (body : String),
      (lookupA s.functionMacros (getTokenText buf t)).isSome = false →
      lookupA s.macros (getTokenText buf t) = some body →
      identStep buf s t = { s with out := s.out ++ body }) := by
  refine ⟨rfl, rfl, by decide, rfl, ?_⟩
  intro buf s t body h1 h2
  simp [identStep, h1, objOrRegular, h2]

/-- Witness for `c4_object_macro_verbatim`: the general conjunct applied
to the buffer `PI;` with an object macro `PI ↦ 3.14159` in the table. -/
theorem c4_object_macro_verbatim_witness :
    identStep "PI;".data ⟨2, [("PI", "3.14159")], [], [], [0], ""⟩ ⟨0, 2, .Ident⟩ =
      { (⟨2, [("PI", "3.14159")], [], [], [0], ""⟩ : PP) with
          out := "" ++ "3.14159" } :=
  c4_object_macro_verbatim.2.2.2.2 "PI;".data
    ⟨2, [("PI", "3.14159")], [], [], [0], ""⟩ ⟨0, 2, .Ident⟩ "3.14159" rfl rfl

/-- C5: the function-macro expansion of `ADD(a+1, b*2)` produces
`((a+1)+(b*2))` (stripped whole-run output, and the substitution core on
the stored body `" ((x)+(y))"` with the raw argument strings, whose
second argument ` b*2` is trimmed); in general the substitution uses
only the first `min(params, args)` pairs — arguments beyond the
parameter count are ignored and parameters beyond the argument count are
left untouched — and substituting pre-trimmed arguments changes nothing
(each argument is trimmed exactly once); finally the left-to-right
search advances past each inserted argument, so a parameter name
reintroduced by an insertion is not re-substituted
(`x ↦ x*2` in `x+x` gives `x*2+x*2`, not an infinite regress). -/
theorem c5_function_macro_substitution :
    expandStripped "#define ADD(x,y) ((x)+(y))\nint s = ADD(a+1, b*2);" =
      some (.ok "ints=((a+1)+(b*2));") ∧
    substParams ["x", "y"] ["a+1", " b*2"] " ((x)+(y))" = " ((a+1)+(b*2))" ∧
    (∀ (ps as : List String) (b : String),
      substParams ps as b = substParams ps (as.take ps.length) b) ∧
    (∀ (ps as : List String) (b : String),
      substParams ps as b = substParams (ps.take as.length) as b) ∧
    (∀ (ps as : List String) (b : String),
      substParams ps as b =
        substParams ps (as.map (fun a => String.mk (trimSpTabEnds a.data))) b) ∧
    substParams ["x"] ["x*2"] "x+x" = "x*2+x*2" := by
  refine ⟨rfl, rfl, ?_, ?_, ?_, rfl⟩
  · intro ps as b
    unfold substParams
    rw [zipTakeRight]
  · intro ps as b
    unfold substParams
    rw [zipTakeLeft]
  · intro ps as b
    unfold substParams
    rw [List.zip_map_right,
      show (ps.zip as).map
          (Prod.map id (fun a => String.mk (trimSpTabEnds a.data))) =
        (ps.zip as).map
          (fun pa => (pa.1, String.mk (trimSpTabEnds pa.2.data))) from
        List.map_congr_left (fun pa _ => rfl),
      substParamsList_trim]

/-- C7: a defined function-macro name not followed (after
whitespace/comment skipping) by `(` is processed as an ordinary
identifier from the cursor position saved before the lookahead — the
state handed on is exactly the pre-lookahead state — and concretely
`int p = F;` emits `F` literally (exact driver output and stripped
form). -/
theorem c7_uncalled_function_macro :
    expandMacros "#define F(x) ((x)+1)\nint p = F;" =
      some (.ok "\nint p  = F; ") ∧
    expandStripped "#define F(x) ((x)+1)\nint p = F;" =
      some (.ok "intp=F;") ∧
    strContains "\nint p  = F; " "(" = false ∧
    (∀ (buf : List Char) (s : PP) (t : Token),
      (lookupA s.functionMacros (getTokenText buf t)).isSome = true →
      charAt buf (skipWSCursor buf s) ≠ some '(' →
      identStep buf s t = objOrRegular buf s t (getTokenText buf t)) := by
  refine ⟨rfl, rfl, by decide, ?_⟩
  intro buf s t h1 h2
  simp only [skipWSCursor] at h2
  simp only [identStep, h1, if_true, skipWSCursor, if_neg h2]

/-- Witness for `c7_uncalled_function_macro`: the general conjunct
applied to the buffer `F;` with a function macro `F` in the table; the
identifier is emitted as ordinary text. -/
theorem c7_uncalled_function_macro_witness :
    identStep "F;".data ⟨1, [], [("F", ["x"])], [("F", "((x)+1)")], [0], ""⟩
        ⟨0, 1, .Ident⟩ =
      objOrRegular "F;".data
        ⟨1, [], [("F", ["x"])], [("F", "((x)+1)")], [0], ""⟩
        ⟨0, 1, .Ident⟩ "F" :=
  c7_uncalled_function_macro.2.2.2 "F;".data
    ⟨1, [], [("F", ["x"])], [("F", "((x)+1)")], [0], ""⟩ ⟨0, 1, .Ident⟩
    rfl (by decide)

/-! ### Termination: every loop of the interpreter is bounded by the
buffer length.  The lemmas below establish that `next()` strictly
advances the cursor whenever it has not reached the end of the buffer,
that every handler only moves the cursor forward, and that each fueled
loop returns `some` when given one unit of fuel per remaining character
(two per character plus a constant for the mutually recursive
conditional-block machinery). -/

theorem countWhile_pos (p : Char → Bool) (c : Char) (rest : List Char)
    (h : p c = true) : 1 ≤ countWhile p (c :: rest) := by
  rw [countWhile, if_pos h]
  omega

theorem punctLenKind_pos (c : Char) (rest : List Char) :
    1 ≤ (punctLenKind c rest).1 := by
  unfold punctLenKind
  split <;> simp

theorem isIdentStart_isIdentChar (c : Char) (h : isIdentStart c = true) :
    isIdentChar c = true := by
  simp only [isIdentStart, isIdentChar, isAlnumC, Bool.or_eq_true] at *
  tauto

theorem classifyTok_begin (p : Nat) (c : Char) (rest : List Char) :
    (classifyTok p c rest).begin_ = p := by
  unfold classifyTok
  split_ifs <;> first | rfl | (split <;> rfl)

theorem classifyTok_len_pos (p : Nat) (c : Char) (rest : List Char) :
    1 ≤ (classifyTok p c rest).len := by
  unfold classifyTok
  split_ifs with h1 h2 h3 h4 h5
  · simp
  · simpa using countWhile_pos _ _ rest (isIdentStart_isIdentChar c h2)
  · simpa using countWhile_pos _ _ rest h3
  · simp
  · split <;> simp
  · simpa using punctLenKind_pos c rest

theorem drop_nil_ge {α : Type} (l : List α) (n : Nat) (h : l.drop n = []) :
    l.length ≤ n := by
  have := congrArg List.length h
  rw [List.length_drop] at this
  simp at this
  omega

theorem nextTok_mono (buf : List Char) (c : Nat) :
    c ≤ (nextTok buf c).begin_ + (nextTok buf c).len := by
  rcases hd : buf.drop (c + skipWS (buf.drop c)) with _ | ⟨ch, rest⟩
  · simp only [nextTok, hd]
    omega
  · simp only [nextTok, hd]
    have hb := classifyTok_begin (c + skipWS (buf.drop c)) ch rest
    have hl := classifyTok_len_pos (c + skipWS (buf.drop c)) ch rest
    omega

theorem nextTok_adv (buf : List Char) (c : Nat) (h : c < buf.length) :
    c + 1 ≤ (nextTok buf c).begin_ + (nextTok buf c).len := by
  rcases hd : buf.drop (c + skipWS (buf.drop c)) with _ | ⟨ch, rest⟩
  · simp only [nextTok, hd]
    have := drop_nil_ge buf _ hd
    omega
  · simp only [nextTok, hd]
    have hb := classifyTok_begin (c + skipWS (buf.drop c)) ch rest
    have hl := classifyTok_len_pos (c + skipWS (buf.drop c)) ch rest
    omega

theorem nextTok_eof_of_ge (buf : List Char) (c : Nat) (h : buf.length ≤ c) :
    (nextTok buf c).kind = .T_EOF := by
  have hd : buf.drop c = [] := List.drop_eq_nil_of_le h
  have hd2 : buf.drop (c + skipWS (buf.drop c)) = [] := by
    rw [hd]
    show buf.drop (c + skipWS []) = []
    rw [show skipWS [] = 0 from rfl]
    simpa using hd
  simp only [nextTok, hd2]

theorem doNext_fst (buf : List Char) (s : PP) :
    (doNext buf s).1 = nextTok buf s.cursor := by
  simp only [doNext]
  split <;> rfl

theorem doNext_cursor (buf : List Char) (s : PP) :
    ((doNext buf s).2).cursor =
      (nextTok buf s.cursor).begin_ + (nextTok buf s.cursor).len := by
  simp only [doNext]
  split <;> rfl

theorem doNext_mono (buf : List Char) (s : PP) :
    s.cursor ≤ ((doNext buf s).2).cursor := by
  rw [doNext_cursor]
  exact nextTok_mono buf s.cursor

theorem doNext_adv (buf : List Char) (s : PP) (h : s.cursor < buf.length) :
    s.cursor + 1 ≤ ((doNext buf s).2).cursor := by
  rw [doNext_cursor]
  exact nextTok_adv buf s.cursor h

theorem doNext_lt_of_kind (buf : List Char) (s : PP)
    (h : ((doNext buf s).1).kind ≠ .T_EOF) : s.cursor < buf.length := by
  by_contra hge
  exact h (by rw [doNext_fst]; exact nextTok_eof_of_ge buf s.cursor (by omega))

theorem skipWSCursor_mono (buf : List Char) (s : PP) :
    s.cursor ≤ (skipWSCursor buf s).cursor := by
  simp [skipWSCursor]

theorem bump_cursor (s : PP) : (bump s).cursor = s.cursor + 1 := rfl

theorem read_line_mono (buf : List Char) (s : PP) :
    s.cursor ≤ ((read_line buf s).2).cursor := by
  simp [read_line]

theorem handle_include_mono (buf : List Char) (s s' : PP)
    (h : handle_include buf s = .ok s') : s.cursor ≤ s'.cursor := by
  simp only [handle_include] at h
  split at h
  · injection h with h
    subst h
    exact doNext_mono buf s
  · injection h

theorem handle_undef_mono (buf : List Char) (s s' : PP)
    (h : handle_undef buf s = .ok s') : s.cursor ≤ s'.cursor := by
  simp only [handle_undef] at h
  split at h
  · injection h with h
    subst h
    exact doNext_mono buf s
  · injection h

theorem handleObjectMacroDef_mono (buf : List Char) (s : PP) (name : String) :
    s.cursor ≤ (handleObjectMacroDef buf s name).cursor := by
  show s.cursor ≤ ((read_line buf (skipWSCursor buf s)).2).cursor
  exact le_trans (skipWSCursor_mono buf s) (read_line_mono buf _)

theorem paramLoopF_spec (buf : List Char) :
    ∀ (fuel : Nat) (s : PP) (acc : List String),
      buf.length - s.cursor + 1 ≤ fuel →
      ∃ r, paramLoopF buf fuel s acc = some r ∧
        ∀ s' ps, r = .ok (s', ps) → s.cursor ≤ s'.cursor := by
  intro fuel
  induction fuel with
  | zero => intro s acc h; omega
  | succ fuel ih =>
    intro s acc h
    simp only [paramLoopF]
    split
    case isFalse hc =>
      refine ⟨.ok (s, acc), rfl, ?_⟩
      rintro s' ps hr
      injection hr with hr
      injection hr with h1 h2
      subst h1
      exact le_refl _
    case isTrue hc =>
      have hsk := skipWSCursor_mono buf s
      split
      case isTrue hp =>
        refine ⟨.ok (bump (skipWSCursor buf s), acc), rfl, ?_⟩
        rintro s' ps hr
        injection hr with hr
        injection hr with h1 h2
        subst h1
        rw [bump_cursor]
        omega
      case isFalse hp =>
        split
        case isTrue hk =>
          have hlt : (skipWSCursor buf s).cursor < buf.length := by
            refine doNext_lt_of_kind buf (skipWSCursor buf s) ?_
            intro he
            rw [hk] at he
            exact absurd he (by decide)
          have hadv := doNext_adv buf (skipWSCursor buf s) hlt
          have hsk2 := skipWSCursor_mono buf ((doNext buf (skipWSCursor buf s)).2)
          split
          case isTrue hcm =>
            obtain ⟨r, hr, hm⟩ := ih
              (bump (skipWSCursor buf ((doNext buf (skipWSCursor buf s)).2)))
              (acc ++ [getTokenText buf ((doNext buf (skipWSCursor buf s)).1)])
              (by rw [bump_cursor]; omega)
            refine ⟨r, hr, ?_⟩
            intro s' ps hr'
            have := hm s' ps hr'
            rw [bump_cursor] at this
            omega
          case isFalse hcm =>
            split
            case isTrue hrp =>
              refine ⟨_, rfl, ?_⟩
              rintro s' ps hr
              injection hr with hr
              injection hr with h1 h2
              subst h1
              rw [bump_cursor]
              omega
            case isFalse hrp =>
              obtain ⟨r, hr, hm⟩ := ih
                (skipWSCursor buf ((doNext buf (skipWSCursor buf s)).2))
                (acc ++ [getTokenText buf ((doNext buf (skipWSCursor buf s)).1)])
                (by omega)
              refine ⟨r, hr, ?_⟩
              intro s' ps hr'
              have := hm s' ps hr'
              omega
        case isFalse hk =>
          refine ⟨_, rfl, ?_⟩
          rintro s' ps hr
          injection hr

theorem handleFunctionMacroDef_spec (buf : List Char) (s : PP) (name : String) :
    ∃ r, handleFunctionMacroDef buf s name = some r ∧
      ∀ s', r = .ok s' → s.cursor ≤ s'.cursor := by
  simp only [handleFunctionMacroDef]
  obtain ⟨r, hr, hm⟩ :=
    paramLoopF_spec buf (buf.length - (bump s).cursor + 1) (bump s) [] (le_refl _)
  rw [hr]
  cases r with
  | error e =>
    exact ⟨.error e, rfl, fun s' h => by injection h⟩
  | ok a =>
    obtain ⟨s2, ps⟩ := a
    simp only [mbind]
    refine ⟨_, rfl, ?_⟩
    rintro s' h
    injection h with h
    subst h
    have h1 := hm s2 ps rfl
    have h2 := read_line_mono buf s2
    show s.cursor ≤ ((read_line buf s2).2).cursor
    rw [bump_cursor] at h1
    omega

theorem handle_define_spec (buf : List Char) (s : PP) :
    ∃ r, handle_define buf s = some r ∧
      ∀ s', r = .ok s' → s.cursor ≤ s'.cursor := by
  simp only [handle_define]
  split
  case isTrue hk =>
    split
    case isTrue hp =>
      obtain ⟨r, hr, hm⟩ := handleFunctionMacroDef_spec buf ((doNext buf s).2)
        (getTokenText buf ((doNext buf s).1))
      exact ⟨r, hr, fun s' h => le_trans (doNext_mono buf s) (hm s' h)⟩
    case isFalse hp =>
      refine ⟨_, rfl, ?_⟩
      rintro s' h
      injection h with h
      subst h
      exact le_trans (doNext_mono buf s) (handleObjectMacroDef_mono buf _ _)
  case isFalse hk =>
    exact ⟨_, rfl, fun s' h => by injection h⟩

theorem emitRegular_cursor (buf : List Char) (s : PP) (t : Token) :
    (emitRegular buf s t).cursor = s.cursor := rfl

theorem objOrRegular_cursor (buf : List Char) (s : PP) (t : Token)
    (text : String) : (objOrRegular buf s t text).cursor = s.cursor := by
  simp only [objOrRegular]
  split
  · rfl
  · exact emitRegular_cursor buf s t

theorem expandFnMacroCall_mono (buf : List Char) (s : PP) (name : String) :
    s.cursor ≤ ((expandFnMacroCall buf s name).2).cursor := by
  have hsk := skipWSCursor_mono buf s
  simp only [expandFnMacroCall]
  split
  case isTrue hp =>
    split
    · show s.cursor ≤ (skipWSCursor buf s).cursor + 1 +
        (argScan (buf.drop ((skipWSCursor buf s).cursor + 1)) 0 "" []).2
      omega
    · split
      · show s.cursor ≤ (skipWSCursor buf s).cursor + 1 +
          (argScan (buf.drop ((skipWSCursor buf s).cursor + 1)) 0 "" []).2
        omega
      · show s.cursor ≤ (skipWSCursor buf s).cursor + 1 +
          (argScan (buf.drop ((skipWSCursor buf s).cursor + 1)) 0 "" []).2
        omega
  case isFalse hp =>
    exact hsk

theorem identStep_mono (buf : List Char) (s : PP) (t : Token) :
    s.cursor ≤ (identStep buf s t).cursor := by
  simp only [identStep]
  split
  case isTrue h1 =>
    split
    case isTrue h2 =>
      show s.cursor ≤
        ((expandFnMacroCall buf (skipWSCursor buf s) (getTokenText buf t)).2).cursor
      exact le_trans (skipWSCursor_mono buf s) (expandFnMacroCall_mono buf _ _)
    case isFalse h2 =>
      rw [objOrRegular_cursor]
  case isFalse h1 =>
    rw [objOrRegular_cursor]

theorem skipUntilEndifF_spec (buf : List Char) :
    ∀ (fuel : Nat) (s : PP) (d : Int),
      buf.length - s.cursor + 1 ≤ fuel →
      ∃ s', skipUntilEndifF buf fuel s d = some s' ∧ s.cursor ≤ s'.cursor := by
  intro fuel
  induction fuel with
  | zero => intro s d h; omega
  | succ fuel ih =>
    intro s d h
    simp only [skipUntilEndifF]
    split
    case isFalse hc => exact ⟨s, rfl, le_refl _⟩
    case isTrue hc =>
      have h1 := doNext_adv buf s hc.1
      have h2 := doNext_mono buf ((doNext buf s).2)
      split
      case isTrue hk =>
        split
        case isTrue hd =>
          obtain ⟨s', hs', hm⟩ := ih ((doNext buf ((doNext buf s).2)).2) (d + 1)
            (by omega)
          exact ⟨s', hs', by omega⟩
        case isFalse hd =>
          split
          case isTrue hd2 =>
            obtain ⟨s', hs', hm⟩ := ih ((doNext buf ((doNext buf s).2)).2) (d - 1)
              (by omega)
            exact ⟨s', hs', by omega⟩
          case isFalse hd2 =>
            obtain ⟨s', hs', hm⟩ := ih ((doNext buf ((doNext buf s).2)).2) d
              (by omega)
            exact ⟨s', hs', by omega⟩
      case isFalse hk =>
        obtain ⟨s', hs', hm⟩ := ih ((doNext buf s).2) d (by omega)
        exact ⟨s', hs', by omega⟩

theorem skipCondBlockF_spec (buf : List Char) :
    ∀ (fuel : Nat) (s : PP) (d : Int),
      buf.length - s.cursor + 1 ≤ fuel →
      ∃ s', skipCondBlockF buf fuel s d = some s' ∧ s.cursor ≤ s'.cursor := by
  intro fuel
  induction fuel with
  | zero => intro s d h; omega
  | succ fuel ih =>
    intro s d h
    simp only [skipCondBlockF]
    split
    case isFalse hc => exact ⟨s, rfl, le_refl _⟩
    case isTrue hc =>
      have h1 := doNext_adv buf s hc.1
      have h2 := doNext_mono buf ((doNext buf s).2)
      split
      case isTrue hk =>
        split
        case isTrue hd =>
          obtain ⟨s', hs', hm⟩ := ih ((doNext buf ((doNext buf s).2)).2) (d + 1)
            (by omega)
          exact ⟨s', hs', by omega⟩
        case isFalse hd =>
          split
          case isTrue hd2 =>
            obtain ⟨s', hs', hm⟩ := ih ((doNext buf ((doNext buf s).2)).2) (d - 1)
              (by omega)
            exact ⟨s', hs', by omega⟩
          case isFalse hd2 =>
            split
            case isTrue hd3 =>
              exact ⟨(doNext buf ((doNext buf s).2)).2, rfl, by omega⟩
            case isFalse hd3 =>
              obtain ⟨s', hs', hm⟩ := ih ((doNext buf ((doNext buf s).2)).2) d
                (by omega)
              exact ⟨s', hs', by omega⟩
      case isFalse hk =>
        obtain ⟨s', hs', hm⟩ := ih ((doNext buf s).2) d (by omega)
        exact ⟨s', hs', by omega⟩

theorem findElseF_spec (buf : List Char) :
    ∀ (fuel : Nat) (saved : Nat) (s : PP), saved ≤ s.cursor →
      buf.length - s.cursor + 1 ≤ fuel →
      ∃ b s', findElseF buf fuel saved s = some (b, s') ∧ saved ≤ s'.cursor := by
  intro fuel
  induction fuel with
  | zero => intro saved s hs h; omega
  | succ fuel ih =>
    intro saved s hs h
    simp only [findElseF]
    split
    case isFalse hc => exact ⟨false, _, rfl, le_refl _⟩
    case isTrue hc =>
      have h1 := doNext_adv buf s hc
      have h2 := doNext_mono buf ((doNext buf s).2)
      split
      case isTrue hk =>
        split
        case isTrue hd => exact ⟨true, _, rfl, by omega⟩
        case isFalse hd =>
          split
          case isTrue hd2 => exact ⟨false, _, rfl, le_refl _⟩
          case isFalse hd2 =>
            obtain ⟨b, s', hs', hm⟩ := ih saved ((doNext buf ((doNext buf s).2)).2)
              (by omega) (by omega)
            exact ⟨b, s', hs', hm⟩
      case isFalse hk =>
        obtain ⟨b, s', hs', hm⟩ := ih saved ((doNext buf s).2) (by omega) (by omega)
        exact ⟨b, s', hs', hm⟩

theorem withOut_cursor (s : PP) (o : String) :
    ({ s with out := o } : PP).cursor = s.cursor := rfl

set_option maxHeartbeats 2000000 in
/-- Fuel sufficiency for the mutually recursive driver: with two units
of fuel per remaining character (plus a constant), `processAndExpand`'s
loop, `handle_if_with_expansion` and `processConditionalBlock` never
exhaust their fuel, and the latter two only move the cursor forward. -/
theorem driverSpec (buf : List Char) :
    ∀ (fuel : Nat),
      (∀ (s : PP), 2 * (buf.length - s.cursor) + 2 ≤ fuel →
        (paeLoopF buf fuel s).isSome) ∧
      (∀ (s : PP), 2 * (buf.length - s.cursor) + 2 ≤ fuel →
        ∃ r, handleIfWF buf fuel s = some r ∧
          ∀ s', r = .ok s' → s.cursor ≤ s'.cursor) ∧
      (∀ (s : PP) (isIf : Bool) (d : Int),
        2 * (buf.length - s.cursor) + 1 ≤ fuel →
        ∃ r, pcbF buf fuel s isIf d = some r ∧
          ∀ s', r = .ok s' → s.cursor ≤ s'.cursor) := by
  intro fuel
  induction fuel using Nat.strong_induction_on with
  | _ fuel ih =>
    rcases fuel with _ | f
    · exact ⟨fun s h => by omega, fun s h => by omega, fun s isIf d h => by omega⟩
    have IH := ih f (Nat.lt_succ_self f)
    refine ⟨?_, ?_, ?_⟩
    · -- paeLoopF at fuel f + 1
      intro s h
      simp only [paeLoopF]
      split
      case isFalse hc => simp
      case isTrue hc =>
        have ha1 := doNext_adv buf s hc
        split
        case isTrue hkE => simp
        case isFalse hkE =>
          split
          case isTrue hkH =>
            have hm1 := doNext_mono buf ((doNext buf s).2)
            split
            case isTrue hInc =>
              cases hh : handle_include buf ((doNext buf ((doNext buf s).2)).2) with
              | error e => simp
              | ok s3 =>
                have hmono := handle_include_mono buf _ _ hh
                exact IH.1 s3 (by omega)
            case isFalse hInc =>
              split
              case isTrue hDef =>
                obtain ⟨r, hr, hm⟩ :=
                  handle_define_spec buf ((doNext buf ((doNext buf s).2)).2)
                rw [hr]
                cases r with
                | error e => simp [mbind]
                | ok s3 =>
                  have hmono := hm s3 rfl
                  simp only [mbind]
                  exact IH.1 s3 (by omega)
              case isFalse hDef =>
                split
                case isTrue hUnd =>
                  cases hh : handle_undef buf ((doNext buf ((doNext buf s).2)).2) with
                  | error e => simp
                  | ok s3 =>
                    have hmono := handle_undef_mono buf _ _ hh
                    exact IH.1 s3 (by omega)
                case isFalse hUnd =>
                  split
                  case isTrue hIf =>
                    have hlt1 : ((doNext buf s).2).cursor < buf.length := by
                      refine doNext_lt_of_kind buf _ ?_
                      intro he
                      rw [hIf] at he
                      exact absurd he (by decide)
                    have ha2 := doNext_adv buf ((doNext buf s).2) hlt1
                    obtain ⟨r, hr, hm⟩ :=
                      IH.2.1 ((doNext buf ((doNext buf s).2)).2) (by omega)
                    rw [hr]
                    cases r with
                    | error e => simp [mbind]
                    | ok s3 =>
                      have hmono := hm s3 rfl
                      simp only [mbind]
                      exact IH.1 s3 (by omega)
                  case isFalse hIf =>
                    split
                    case isTrue hEls =>
                      obtain ⟨s3, hs3, hmono⟩ := skipUntilEndifF_spec buf
                        (buf.length - ((doNext buf ((doNext buf s).2)).2).cursor + 1)
                        ((doNext buf ((doNext buf s).2)).2) 1 (le_refl _)
                      rw [hs3]
                      exact IH.1 s3 (by omega)
                    case isFalse hEls =>
                      split
                      case isTrue hEnd => exact IH.1 _ (by omega)
                      case isFalse hEnd => exact IH.1 _ (by omega)
          case isFalse hkH =>
            split
            case isTrue hkU =>
              refine IH.1 _ ?_
              have hx := withOut_cursor ((doNext buf s).2) (((doNext buf s).2).out ++ "\n")
              omega
            case isFalse hkU =>
              split
              case isTrue hkI =>
                have hx := identStep_mono buf ((doNext buf s).2) ((doNext buf s).1)
                exact IH.1 _ (by omega)
              case isFalse hkI =>
                have hx := emitRegular_cursor buf ((doNext buf s).2) ((doNext buf s).1)
                exact IH.1 _ (by omega)
    · -- handleIfWF at fuel f + 1
      intro s h
      simp only [handleIfWF]
      have hrl := read_line_mono buf s
      split
      case isTrue hcond =>
        obtain ⟨r, hr, hm⟩ := IH.2.2 ((read_line buf s).2) true 1 (by omega)
        exact ⟨r, hr, fun s' h' => le_trans hrl (hm s' h')⟩
      case isFalse hcond =>
        obtain ⟨s2, hs2, hm2⟩ := skipCondBlockF_spec buf
          (buf.length - ((read_line buf s).2).cursor + 1) ((read_line buf s).2) 1
          (le_refl _)
        simp only [hs2]
        obtain ⟨b, s3, hs3, hm3⟩ := findElseF_spec buf
          (buf.length - s2.cursor + 1) s2.cursor s2 (le_refl _) (le_refl _)
        simp only [hs3]
        cases b
        case false =>
          refine ⟨.ok s3, rfl, ?_⟩
          rintro s' h'
          injection h' with h'
          subst h'
          omega
        case true =>
          obtain ⟨r, hr, hm⟩ := IH.2.2 s3 false 1 (by omega)
          exact ⟨r, hr, fun s' h' => by have := hm s' h'; omega⟩
    · -- pcbF at fuel f + 1
      intro s isIf d h
      simp only [pcbF]
      split
      case isFalse hc =>
        refine ⟨.ok s, rfl, ?_⟩
        rintro s' h'
        injection h' with h'
        subst h'
        exact le_refl _
      case isTrue hc =>
        have hcl : s.cursor < buf.length := hc.1
        have ha1 := doNext_adv buf s hcl
        split
        case isTrue hkE =>
          refine ⟨.ok ((doNext buf s).2), rfl, ?_⟩
          rintro s' h'
          injection h' with h'
          subst h'
          omega
        case isFalse hkE =>
          split
          case isTrue hkH =>
            have hm1 := doNext_mono buf ((doNext buf s).2)
            split
            case isTrue hIf =>
              have hlt1 : ((doNext buf s).2).cursor < buf.length := by
                refine doNext_lt_of_kind buf _ ?_
                intro he
                rw [hIf] at he
                exact absurd he (by decide)
              have ha2 := doNext_adv buf ((doNext buf s).2) hlt1
              obtain ⟨r, hr, hm⟩ :=
                IH.2.1 ((doNext buf ((doNext buf s).2)).2) (by omega)
              rw [hr]
              cases r with
              | error e =>
                exact ⟨.error e, by simp [mbind], fun s' h' => by injection h'⟩
              | ok s3 =>
                have hmono := hm s3 rfl
                simp only [mbind]
                obtain ⟨r2, hr2, hm2⟩ := IH.2.2 s3 isIf d (by omega)
                exact ⟨r2, hr2, fun s' h' => by have := hm2 s' h'; omega⟩
            case isFalse hIf =>
              split
              case isTrue hEnd =>
                split
                case isTrue hd0 =>
                  refine ⟨.ok ((doNext buf ((doNext buf s).2)).2), rfl, ?_⟩
                  rintro s' h'
                  injection h' with h'
                  subst h'
                  omega
                case isFalse hd0 =>
                  obtain ⟨r, hr, hm⟩ :=
                    IH.2.2 ((doNext buf ((doNext buf s).2)).2) isIf (d - 1) (by omega)
                  exact ⟨r, hr, fun s' h' => by have := hm s' h'; omega⟩
              case isFalse hEnd =>
                split
                case isTrue hEls =>
                  split
                  case isTrue hIsIf =>
                    refine ⟨.ok ((doNext buf ((doNext buf s).2)).2), rfl, ?_⟩
                    rintro s' h'
                    injection h' with h'
                    subst h'
                    omega
                  case isFalse hIsIf =>
                    obtain ⟨r, hr, hm⟩ :=
                      IH.2.2 ((doNext buf ((doNext buf s).2)).2) isIf d (by omega)
                    exact ⟨r, hr, fun s' h' => by have := hm s' h'; omega⟩
                case isFalse hEls =>
                  split
                  case isTrue hDef =>
                    obtain ⟨r, hr, hm⟩ :=
                      handle_define_spec buf ((doNext buf ((doNext buf s).2)).2)
                    rw [hr]
                    cases r with
                    | error e =>
                      exact ⟨.error e, by simp [mbind], fun s' h' => by injection h'⟩
                    | ok s3 =>
                      have hmono := hm s3 rfl
                      simp only [mbind]
                      obtain ⟨r2, hr2, hm2⟩ := IH.2.2 s3 isIf d (by omega)
                      exact ⟨r2, hr2, fun s' h' => by have := hm2 s' h'; omega⟩
                  case isFalse hDef =>
                    split
                    case isTrue hUnd =>
                      cases hh : handle_undef buf ((doNext buf ((doNext buf s).2)).2) with
                      | error e =>
                        exact ⟨.error e, by simp, fun s' h' => by injection h'⟩
                      | ok s3 =>
                        have hmono := handle_undef_mono buf _ _ hh
                        obtain ⟨r2, hr2, hm2⟩ := IH.2.2 s3 isIf d (by omega)
                        exact ⟨r2, hr2, fun s' h' => by have := hm2 s' h'; omega⟩
                    case isFalse hUnd =>
                      obtain ⟨r, hr, hm⟩ :=
                        IH.2.2 ((doNext buf ((doNext buf s).2)).2) isIf d (by omega)
                      exact ⟨r, hr, fun s' h' => by have := hm s' h'; omega⟩
          case isFalse hkH =>
            split
            case isTrue hkU =>
              obtain ⟨r, hr, hm⟩ := IH.2.2
                ({ (doNext buf s).2 with out := ((doNext buf s).2).out ++ "\n" })
                isIf d
                (by show 2 * (buf.length - ((doNext buf s).2).cursor) + 1 ≤ f; omega)
              refine ⟨r, hr, ?_⟩
              intro s' h'
              have hmm : ((doNext buf s).2).cursor ≤ s'.cursor := hm s' h'
              omega
            case isFalse hkU =>
              split
              case isTrue hkI =>
                have hx := identStep_mono buf ((doNext buf s).2) ((doNext buf s).1)
                obtain ⟨r, hr, hm⟩ := IH.2.2
                  (identStep buf ((doNext buf s).2) ((doNext buf s).1)) isIf d (by omega)
                exact ⟨r, hr, fun s' h' => by have := hm s' h'; omega⟩
              case isFalse hkI =>
                have hx := emitRegular_cursor buf ((doNext buf s).2) ((doNext buf s).1)
                obtain ⟨r, hr, hm⟩ := IH.2.2
                  (emitRegular buf ((doNext buf s).2) ((doNext buf s).1)) isIf d (by omega)
                exact ⟨r, hr, fun s' h' => by have := hm s' h'; omega⟩

set_option maxHeartbeats 1000000 in
/-- Fuel sufficiency for the `process()` loop: one unit of fuel per
remaining character plus two never runs out. -/
theorem procLoopF_spec (buf : List Char) :
    ∀ (fuel : Nat) (s : PP), buf.length - s.cursor + 2 ≤ fuel →
      (procLoopF buf fuel s).isSome := by
  intro fuel
  induction fuel with
  | zero => intro s h; omega
  | succ fuel ih =>
    intro s h
    simp only [procLoopF]
    split
    case isTrue hkE => simp
    case isFalse hkE =>
      have hlt : s.cursor < buf.length := doNext_lt_of_kind buf s hkE
      have ha1 := doNext_adv buf s hlt
      split
      case isTrue hkH =>
        have hm1 := doNext_mono buf ((doNext buf s).2)
        split
        case isTrue hInc =>
          cases hh : handle_include buf ((doNext buf ((doNext buf s).2)).2) with
          | error e => simp
          | ok s3 =>
            have hmono := handle_include_mono buf _ _ hh
            exact ih s3 (by omega)
        case isFalse hInc =>
          split
          case isTrue hDef =>
            obtain ⟨r, hr, hm⟩ :=
              handle_define_spec buf ((doNext buf ((doNext buf s).2)).2)
            rw [hr]
            cases r with
            | error e => simp [mbind]
            | ok s3 =>
              have hmono := hm s3 rfl
              simp only [mbind]
              exact ih s3 (by omega)
          case isFalse hDef =>
            split
            case isTrue hUnd =>
              cases hh : handle_undef buf ((doNext buf ((doNext buf s).2)).2) with
              | error e => simp
              | ok s3 =>
                have hmono := handle_undef_mono buf _ _ hh
                exact ih s3 (by omega)
            case isFalse hUnd =>
              split
              case isTrue hIf =>
                have hrl := read_line_mono buf ((doNext buf ((doNext buf s).2)).2)
                split
                case isTrue hcond => exact ih _ (by omega)
                case isFalse hcond =>
                  obtain ⟨s4, hs4, hm4⟩ := skipCondBlockF_spec buf
                    (buf.length -
                      ((read_line buf ((doNext buf ((doNext buf s).2)).2)).2).cursor + 1)
                    ((read_line buf ((doNext buf ((doNext buf s).2)).2)).2) 1 (le_refl _)
                  simp only [hs4]
                  exact ih s4 (by omega)
              case isFalse hIf =>
                split
                case isTrue hEls =>
                  obtain ⟨s3, hs3, hmono⟩ := skipUntilEndifF_spec buf
                    (buf.length - ((doNext buf ((doNext buf s).2)).2).cursor + 1)
                    ((doNext buf ((doNext buf s).2)).2) 1 (le_refl _)
                  simp only [hs3]
                  exact ih s3 (by omega)
                case isFalse hEls =>
                  split
                  case isTrue hEnd => exact ih _ (by omega)
                  case isFalse hEnd => simp
      case isFalse hkH => exact ih _ (by omega)

theorem processAndExpand_isSome (input : String) :
    (processAndExpand input).isSome := by
  have hlen : input.data.length = input.length := rfl
  have h := (driverSpec input.data (2 * input.length + 2)).1 initPP
    (by show 2 * (input.data.length - 0) + 2 ≤ 2 * input.length + 2; omega)
  unfold processAndExpand
  rcases hx : paeLoopF input.data (2 * input.length + 2) initPP with _ | r
  · rw [hx] at h
    simp at h
  · cases r with
    | error e => simp [hx]
    | ok s => simp [hx]

theorem process_isSome (input : String) : (process input).isSome := by
  have hlen : input.data.length = input.length := rfl
  unfold process
  exact procLoopF_spec input.data (input.length + 2) initPP
    (by show input.data.length - 0 + 2 ≤ input.length + 2; omega)

/-- C9: for every finite input, both `process()` and `expandMacros()`
terminate: the fuel the entry points supply — one to two units per
buffer character plus a constant — provably never runs out, because
`next()` consumes at least one character whenever the cursor has not
reached the end, every handler only moves the cursor forward, and the
recursive nested-`#if` machinery consumes at least the `#if` tokens
before each recursive activation.  Pathological inputs run to buffer
exhaustion: an unterminated block comment yields an empty expansion and
an unmatched `#if` emits its branch up to the end of the buffer. -/
theorem c9_termination :
    (∀ (input : String), (expandMacros input).isSome) ∧
    (∀ (input : String), (process input).isSome) ∧
    expandMacros "/*" = some (.ok "") ∧
    expandMacros "#if 1\nint x;" = some (.ok "\nint x; ") :=
  ⟨fun input => processAndExpand_isSome input,
   fun input => process_isSome input, rfl, rfl⟩

end CPre
